import Mathlib

/-!
Verification development for the iterative reweighted TF-MxNE (irTF-MxNE)
source-localization pipeline.  The repository's own code is the example
script `examples/inverse/plot_multidict_reweighted_tfmxne.py`; the numerical
solver it calls lives in the external library, so the solver components are
modelled from the design specification and the script's call site is embedded
directly.
-/

set_option maxHeartbeats 1000000

namespace IRTFMxNE

/-- Modelled from the spec: the analysis transform of one dictionary scale
(`analyze(source_time_series) -> coefficients`) is a linear map from a
source's time series to its time-frequency coefficients, represented by the
matrix of the transform.  The concrete STFT implementation is in the external
library, not in this repository. -/
def analyze {R : Type} [CommRing R] [StarRing R] {t c : ℕ}
    (Phi : Matrix (Fin c) (Fin t) R) (x : Fin t → R) : Fin c → R :=
  Phi.mulVec x

/-- Modelled from the spec: `synthesize(coefficients) -> source_time_series`;
synthesis is the conjugate-transpose of analysis. -/
def synthesize {R : Type} [CommRing R] [StarRing R] {t c : ℕ}
    (Phi : Matrix (Fin c) (Fin t) R) (y : Fin c → R) : Fin t → R :=
  Phi.conjTranspose.mulVec y

/-- Sesquilinear inner product `<u, v> = sum_i conj (u i) * v i` used to state
adjointness of the dictionary transforms. -/
def sesq {R : Type} [CommRing R] [StarRing R] {k : ℕ} (u v : Fin k → R) : R :=
  ∑ i, star (u i) * v i

end IRTFMxNE

namespace ScriptParams

/-- Regularization strength at the example's call site (`alpha = 35`). -/
def alpha : ℚ := 35

/-- Mixing parameter at the example's call site (`l1_ratio = 0.002`). -/
def l1_ratio : ℚ := 2 / 1000

/-- Orientation parameter at the example's call site (`loose = 0.2`). -/
def loose : ℚ := 2 / 10

/-- Depth-weighting parameter at the example's call site (`depth = 0.9`). -/
def depth : ℚ := 9 / 10

/-- Window sizes of the multiscale dictionary at the call site. -/
def wsize : List ℕ := [16, 64]

/-- Time steps of the multiscale dictionary at the call site. -/
def tstep : List ℕ := [2, 4]

/-- Number of outer reweighting iterations at the call site. -/
def n_tfmxne_iter : ℕ := 5

/-- Lower bound of the crop window applied after solving (`tmin = 0.`). -/
def cropTmin : ℚ := 0

/-- Upper bound of the crop window applied after solving (`tmax = 0.3`). -/
def cropTmax : ℚ := 3 / 10

/-- A sampled waveform: list of (time, value) pairs. -/
abbrev TS : Type := List (ℚ × ℚ)

/-- Crop a waveform to the closed window `[tmin, tmax]`, keeping only samples
whose time stamp lies inside the window (mirrors `.crop(tmin, tmax)`). -/
def crop (tmin tmax : ℚ) (x : TS) : TS :=
  x.filter fun s => decide (tmin ≤ s.1) && decide (s.1 ≤ tmax)

/-- Post-processing performed by the script after `tf_mixed_norm` returns:
every dipole, the evoked data and the residual are cropped to the same window
`[cropTmin, cropTmax]` before any visualization. -/
def scriptPost (dipoles : List TS) (evoked residual : TS) :
    List TS × TS × TS :=
  (dipoles.map (crop cropTmin cropTmax),
   crop cropTmin cropTmax evoked,
   crop cropTmin cropTmax residual)

/-- A sample lies in the common visualization window `[0, 3/10]`. -/
def inWin (s : ℚ × ℚ) : Prop := cropTmin ≤ s.1 ∧ s.1 ≤ cropTmax

instance (s : ℚ × ℚ) : Decidable (inWin s) := by
  unfold inWin; infer_instance

end ScriptParams

namespace IRTFMxNE

/-- Claim C2: for every configured dictionary scale and all vectors `x`, `y`,
the analysis and synthesis transforms form an exact adjoint pair:
`<analyze x, y> = <x, synthesize y>` (synthesis being the conjugate-transpose
of analysis). -/
theorem claim_C2_adjoint {R : Type} [CommRing R] [StarRing R] {t c : ℕ}
    (Phi : Matrix (Fin c) (Fin t) R) (x : Fin t → R) (y : Fin c → R) :
    sesq (analyze Phi x) y = sesq x (synthesize Phi y) := by
  simp only [sesq, analyze, synthesize, Matrix.mulVec, Matrix.dotProduct,
    Matrix.conjTranspose_apply, star_sum, star_mul, Finset.sum_mul,
    Finset.mul_sum]
  rw [Finset.sum_comm]
  refine Finset.sum_congr rfl fun j _ => Finset.sum_congr rfl fun i _ => ?_
  ring

end IRTFMxNE

namespace ScriptParams

/-- Claim C9: at the example's call site every documented parameter
precondition holds: `l1_ratio`, `loose` and `depth` lie in `[0,1]`,
`n_tfmxne_iter` is a positive integer, and `wsize`, `tstep` are lists of the
same length `2`, defining two dictionary scales. -/
theorem claim_C9_callsite :
    (0 ≤ l1_ratio ∧ l1_ratio ≤ 1) ∧ (0 ≤ loose ∧ loose ≤ 1) ∧
    (0 ≤ depth ∧ depth ≤ 1) ∧ 0 < n_tfmxne_iter ∧
    wsize.length = tstep.length ∧ wsize.length = 2 := by
  refine ⟨⟨?_, ?_⟩, ⟨?_, ?_⟩, ⟨?_, ?_⟩, ?_, ?_, ?_⟩ <;>
    norm_num [ l1_ratio, loose, depth, n_tfmxne_iter, wsize, tstep]

/-- Claim C10: after the solver returns, the script crops every dipole, the
evoked data and the residual to the identical window `[0, 3/10]`, so every
sample surviving post-processing lies in that common window. -/
theorem claim_C10_crop (d : List TS) (e r : TS) :
    (∀ dip, dip ∈ (scriptPost d e r).1 → ∀ s, s ∈ dip → inWin s) ∧
    (∀ s, s ∈ (scriptPost d e r).2.1 → inWin s) ∧
    (∀ s, s ∈ (scriptPost d e r).2.2 → inWin s) := by
  refine ⟨?_, ?_, ?_⟩
  · intro dip hdip s hs
    simp only [scriptPost, List.mem_map] at hdip
    obtain ⟨d0, _, rfl⟩ := hdip
    simp only [crop, List.mem_filter, Bool.and_eq_true, decide_eq_true_eq] at hs
    exact ⟨hs.2.1, hs.2.2⟩
  · intro s hs
    simp only [scriptPost, crop, List.mem_filter, Bool.and_eq_true,
      decide_eq_true_eq] at hs
    exact ⟨hs.2.1, hs.2.2⟩
  · intro s hs
    simp only [scriptPost, crop, List.mem_filter, Bool.and_eq_true,
      decide_eq_true_eq] at hs
    exact ⟨hs.2.1, hs.2.2⟩

/-- Concrete instantiation of the crop property: the sample `(1/10, 5)` of a
one-sample dipole survives the crop and indeed lies in the common window. -/
theorem claim_C10_crop_witness : inWin ((1 : ℚ) / 10, (5 : ℚ)) :=
  (claim_C10_crop [[((1 : ℚ) / 10, (5 : ℚ))]] [] []).1
    [((1 : ℚ) / 10, (5 : ℚ))]
    (by norm_num [scriptPost, crop, cropTmin, cropTmax, List.filter])
    ((1 : ℚ) / 10, (5 : ℚ))
    (by norm_num [scriptPost, crop, cropTmin, cropTmax, List.filter])

end ScriptParams

namespace IRTFMxNE

/-- Squared Euclidean norm of a rational vector. -/
def sqnormQ {k : ℕ} (v : Fin k → ℚ) : ℚ := ∑ i, v i ^ 2

/-- Euclidean inner product of rational vectors. -/
def dotQ {k : ℕ} (u v : Fin k → ℚ) : ℚ := ∑ i, u i * v i

/-- Modelled from the spec: data-fit term `0.5 * ||M - A z||^2` of the
penalized objective, where `A` is the whitened forward operator composed with
dictionary synthesis (so `A z` is `G @ synthesize(z)` in whitened space); the
concrete solver is in the external library, not in this repository. -/
def datafit {m nc : ℕ} (A : Matrix (Fin m) (Fin nc) ℚ) (M : Fin m → ℚ)
    (z : Fin nc → ℚ) : ℚ :=
  sqnormQ (fun i => M i - A.mulVec z i) / 2

/-- Penalized objective `0.5 * ||M - A z||^2 + P z` minimized by the inner
solver; the penalty `P` carries the current reweighting weights, `alpha` and
the mixed-norm ratio. -/
def objective {m nc : ℕ} (A : Matrix (Fin m) (Fin nc) ℚ) (M : Fin m → ℚ)
    (P : (Fin nc → ℚ) → ℚ) (z : Fin nc → ℚ) : ℚ :=
  datafit A M z + P z

/-- Gradient of the data-fit term, `Aᵀ (A z - M)`. -/
def gradf {m nc : ℕ} (A : Matrix (Fin m) (Fin nc) ℚ) (M : Fin m → ℚ)
    (z : Fin nc → ℚ) : Fin nc → ℚ :=
  fun j => ∑ i, A i j * (A.mulVec z i - M i)

/-- Squared Frobenius norm of the operator, a rational majorizing Lipschitz
constant for the data-fit gradient. -/
def frobSq {m nc : ℕ} (A : Matrix (Fin m) (Fin nc) ℚ) : ℚ :=
  ∑ i, ∑ j, A i j ^ 2

/-- Forward (gradient) point `z - (1/L) * gradf z` to which the proximal
shrinkage operator is applied. -/
def fwdPoint {m nc : ℕ} (A : Matrix (Fin m) (Fin nc) ℚ) (M : Fin m → ℚ)
    (L : ℚ) (z : Fin nc → ℚ) : Fin nc → ℚ :=
  fun j => z j - gradf A M z j / L

lemma sqnormQ_nonneg {k : ℕ} (v : Fin k → ℚ) : 0 ≤ sqnormQ v :=
  Finset.sum_nonneg fun i _ => sq_nonneg (v i)

lemma dotQ_gradf {m nc : ℕ} (A : Matrix (Fin m) (Fin nc) ℚ) (M : Fin m → ℚ)
    (z d : Fin nc → ℚ) :
    dotQ (gradf A M z) d = ∑ i, (A.mulVec z i - M i) * A.mulVec d i := by
  unfold dotQ gradf Matrix.mulVec Matrix.dotProduct
  simp only [Finset.sum_mul, Finset.mul_sum]
  rw [Finset.sum_comm]
  exact Finset.sum_congr rfl fun i _ => Finset.sum_congr rfl fun j _ => by ring

lemma quadExpand {m nc : ℕ} (A : Matrix (Fin m) (Fin nc) ℚ) (M : Fin m → ℚ)
    (z d : Fin nc → ℚ) :
    datafit A M (z + d)
      = datafit A M z + dotQ (gradf A M z) d + sqnormQ (A.mulVec d) / 2 := by
  rw [dotQ_gradf]
  unfold datafit sqnormQ
  rw [Matrix.mulVec_add]
  simp only [Pi.add_apply]
  have h : ∑ i, (M i - (A.mulVec z i + A.mulVec d i)) ^ 2
      = ∑ i, ((M i - A.mulVec z i) ^ 2
          + (2 * ((A.mulVec z i - M i) * A.mulVec d i) + A.mulVec d i ^ 2)) :=
    Finset.sum_congr rfl fun i _ => by ring
  rw [h, Finset.sum_add_distrib, Finset.sum_add_distrib, ← Finset.mul_sum]
  ring

lemma opBound {m nc : ℕ} (A : Matrix (Fin m) (Fin nc) ℚ) (d : Fin nc → ℚ) :
    sqnormQ (A.mulVec d) ≤ frobSq A * sqnormQ d := by
  unfold sqnormQ frobSq Matrix.mulVec Matrix.dotProduct
  rw [Finset.sum_mul]
  exact Finset.sum_le_sum fun i _ => Finset.sum_mul_sq_le_sq_mul_sq _ _ _

/-- Proximal-descent lemma: one proximal step can only decrease the penalized
objective, provided the step satisfies the proximal inequality against the
current point and `L` majorizes the squared Frobenius norm of the operator. -/
lemma prox_descent {m nc : ℕ} (A : Matrix (Fin m) (Fin nc) ℚ) (M : Fin m → ℚ)
    (L : ℚ) (P : (Fin nc → ℚ) → ℚ) (z z' : Fin nc → ℚ)
    (hL : frobSq A ≤ L) (hL0 : 0 < L)
    (hstep : P z' + L / 2 * sqnormQ (fun j => z' j - fwdPoint A M L z j)
      ≤ P z + L / 2 * sqnormQ (fun j => z j - fwdPoint A M L z j)) :
    objective A M P z' ≤ objective A M P z := by
  have hLne : L ≠ 0 := ne_of_gt hL0
  set g : Fin nc → ℚ := gradf A M z with hg
  set d : Fin nc → ℚ := fun j => z' j - z j with hd
  have hzd : z + d = z' := by funext j; simp [hd]
  have hq : datafit A M z' = datafit A M z + dotQ g d + sqnormQ (A.mulVec d) / 2 := by
    rw [← hzd]; exact quadExpand A M z d
  have e1 : sqnormQ (fun j => z j - fwdPoint A M L z j) = sqnormQ g / L ^ 2 := by
    unfold sqnormQ fwdPoint
    rw [Finset.sum_div]
    refine Finset.sum_congr rfl fun j _ => ?_
    rw [← hg]
    field_simp
  have e2 : sqnormQ (fun j => z' j - fwdPoint A M L z j)
      = sqnormQ d + (2 * dotQ g d / L + sqnormQ g / L ^ 2) := by
    unfold sqnormQ dotQ fwdPoint
    have h : ∀ j, (z' j - (z j - g j / L)) ^ 2
        = (z' j - z j) ^ 2 + (2 * (g j * (z' j - z j)) / L + g j ^ 2 / L ^ 2) := by
      intro j
      field_simp
      ring
    simp only [hg, h]
    rw [Finset.sum_add_distrib, Finset.sum_add_distrib, ← Finset.sum_div,
      ← Finset.sum_div, ← Finset.mul_sum]
  rw [e1, e2] at hstep
  have hb : sqnormQ (A.mulVec d) ≤ L * sqnormQ d :=
    le_trans (opBound A d) (mul_le_mul_of_nonneg_right hL (sqnormQ_nonneg d))
  have key : L / 2 * (sqnormQ g / L ^ 2)
      - L / 2 * (sqnormQ d + (2 * dotQ g d / L + sqnormQ g / L ^ 2))
      = -(L / 2 * sqnormQ d) - dotQ g d := by
    field_simp
    ring
  unfold objective
  rw [hq]
  nlinarith [hstep, key, hb]

/-- Inner trajectory: `k` proximal steps from the warm start `z0`. -/
def innerTraj {nc : ℕ} (step : (Fin nc → ℚ) → Fin nc → ℚ) (z0 : Fin nc → ℚ) :
    ℕ → Fin nc → ℚ
  | 0 => z0
  | k + 1 => step (innerTraj step z0 k)

/-- Coefficients at the start of outer round `r`: round `r` is warm-started
from the result of the `K` inner steps of round `r - 1`. -/
def outerWarm {nc : ℕ} (step : ℕ → (Fin nc → ℚ) → Fin nc → ℚ) (K : ℕ)
    (z0 : Fin nc → ℚ) : ℕ → Fin nc → ℚ
  | 0 => z0
  | r + 1 => innerTraj (step r) (outerWarm step K z0 r) K

/-- Iterate `k` of the inner solve of outer reweighting round `r`. -/
def roundTraj {nc : ℕ} (step : ℕ → (Fin nc → ℚ) → Fin nc → ℚ) (K : ℕ)
    (z0 : Fin nc → ℚ) (r k : ℕ) : Fin nc → ℚ :=
  innerTraj (step r) (outerWarm step K z0 r) k

/-- Claim C1: for every outer reweighting round `r`, the penalized objective
`0.5 * ||M - A z||^2 + pen r z` is non-increasing across successive inner
iterations, and every reweighting update preserves this monotone decrease:
the bound holds at every round `r` (warm-started from the previous round),
whatever weights the update produced, as long as each round's proximal step
satisfies the majorize-minimize proximal inequality and `L` majorizes the
squared Frobenius norm of the operator. -/
theorem claim_C1_monotone {m nc : ℕ} (A : Matrix (Fin m) (Fin nc) ℚ)
    (M : Fin m → ℚ) (L : ℚ) (pen : ℕ → (Fin nc → ℚ) → ℚ)
    (step : ℕ → (Fin nc → ℚ) → Fin nc → ℚ) (K : ℕ) (z0 : Fin nc → ℚ)
    (hL : frobSq A ≤ L) (hL0 : 0 < L)
    (hprox : ∀ r z, pen r (step r z)
        + L / 2 * sqnormQ (fun j => step r z j - fwdPoint A M L z j)
      ≤ pen r z + L / 2 * sqnormQ (fun j => z j - fwdPoint A M L z j))
    (r k : ℕ) :
    objective A M (pen r) (roundTraj step K z0 r (k + 1))
      ≤ objective A M (pen r) (roundTraj step K z0 r k) := by
  have hstep : roundTraj step K z0 r (k + 1) = step r (roundTraj step K z0 r k) := rfl
  rw [hstep]
  exact prox_descent A M L (pen r) _ _ hL hL0 (hprox r (roundTraj step K z0 r k))

/-- Scalar soft-threshold (shrinkage) operator with threshold `t`. -/
def softThresh (t x : ℚ) : ℚ :=
  if t < x then x - t else if x < -t then x + t else 0

/-- Inputs of one concrete solving session: whitened operator (forward
composed with synthesis), whitened data, step constant `L`, regularization
strength, reweighting epsilon, the grouping of coefficients by source, and
the inner iteration count. -/
structure IRParams (m ns nc : ℕ) where
  A : Matrix (Fin m) (Fin nc) ℚ
  M : Fin m → ℚ
  L : ℚ
  alpha : ℚ
  eps : ℚ
  srcOf : Fin nc → Fin ns
  K : ℕ

/-- Modelled from the spec: aggregate magnitude of the coefficient block of
source `s` (group sparsity couples all of a source's coefficients). -/
def srcMag {ns nc : ℕ} (srcOf : Fin nc → Fin ns) (z : Fin nc → ℚ)
    (s : Fin ns) : ℚ :=
  ∑ j ∈ Finset.univ.filter (fun j => srcOf j = s), |z j|

/-- Modelled from the spec: the weighted sparsity penalty of the inner
problem, in its per-coefficient (lasso) corner of the mixed-norm family, with
one positive weight per source shared by all coefficients of that source. -/
def penW {ns nc : ℕ} (alpha : ℚ) (srcOf : Fin nc → Fin ns) (w : Fin ns → ℚ)
    (z : Fin nc → ℚ) : ℚ :=
  alpha * ∑ j, w (srcOf j) * |z j|

/-- Modelled from the spec: one proximal-gradient (ISTA) step of the inner
solver: gradient step then per-coefficient shrinkage with the source's
reweighted threshold. -/
def istaStep {m ns nc : ℕ} (p : IRParams m ns nc) (w : Fin ns → ℚ)
    (z : Fin nc → ℚ) : Fin nc → ℚ :=
  fun j => softThresh (p.alpha * w (p.srcOf j) / p.L) (fwdPoint p.A p.M p.L z j)

/-- Modelled from the spec: reweighting state. Round 0 uses uniform weights
(equivalent to convex TF-MxNE); after each round the weight of a source is a
non-increasing function of its coefficient magnitude, `1 / (magnitude + eps)`. -/
def roundWeights {m ns nc : ℕ} (p : IRParams m ns nc) (r : ℕ)
    (z : Fin nc → ℚ) : Fin ns → ℚ :=
  if r = 0 then fun _ => 1 else fun s => 1 / (srcMag p.srcOf z s + p.eps)

/-- Modelled from the spec: the iterative reweighted solver. `irZ p r` is the
coefficient vector after `r` outer reweighting rounds, each running `p.K`
warm-started inner proximal steps with the weights of that round. -/
def irZ {m ns nc : ℕ} (p : IRParams m ns nc) : ℕ → Fin nc → ℚ
  | 0 => fun _ => 0
  | r + 1 => innerTraj (istaStep p (roundWeights p r (irZ p r))) (irZ p r) p.K

/-- Modelled from the spec: the plain (convex) TF-MxNE solver is a single
inner solve with uniform weights, started from zero. -/
def tfMxNE {m ns nc : ℕ} (p : IRParams m ns nc) : Fin nc → ℚ :=
  innerTraj (istaStep p fun _ => 1) (fun _ => 0) p.K

/-- Number of active sources of a coefficient vector: sources whose block
magnitude is nonzero. -/
def activeCount {ns nc : ℕ} (srcOf : Fin nc → Fin ns) (z : Fin nc → ℚ) : ℕ :=
  (Finset.univ.filter fun s => srcMag srcOf z s ≠ 0).card

lemma srcMag_nonneg {ns nc : ℕ} (srcOf : Fin nc → Fin ns) (z : Fin nc → ℚ)
    (s : Fin ns) : 0 ≤ srcMag srcOf z s :=
  Finset.sum_nonneg fun j _ => abs_nonneg (z j)

lemma roundWeights_nonneg {m ns nc : ℕ} (p : IRParams m ns nc) (heps : 0 ≤ p.eps)
    (r : ℕ) (z : Fin nc → ℚ) (s : Fin ns) : 0 ≤ roundWeights p r z s := by
  unfold roundWeights
  split
  · exact zero_le_one
  · exact one_div_nonneg.mpr (add_nonneg (srcMag_nonneg p.srcOf z s) heps)

/-- Scalar proximal inequality of the soft-threshold operator: the shrunk
point is at least as good as any point `u` for the scalar prox objective. -/
lemma softThresh_prox (t v u : ℚ) (ht : 0 ≤ t) :
    t * |softThresh t v| + (softThresh t v - v) ^ 2 / 2
      ≤ t * |u| + (u - v) ^ 2 / 2 := by
  unfold softThresh
  split_ifs with h1 h2
  · have habs : |v - t| = v - t := abs_of_nonneg (by linarith)
    rw [habs]
    nlinarith [sq_nonneg (u - v + t), mul_nonneg ht (sub_nonneg.mpr (le_abs_self u))]
  · have habs : |v + t| = -(v + t) := abs_of_nonpos (by linarith)
    rw [habs]
    nlinarith [sq_nonneg (u - v - t),
      mul_nonneg ht (by linarith [neg_abs_le u] : (0 : ℚ) ≤ |u| + u)]
  · have hv1 : v ≤ t := le_of_not_lt h1
    have hv2 : -t ≤ v := by linarith [le_of_not_lt h2]
    have habs : u * v ≤ |u| * t := by
      calc u * v ≤ |u * v| := le_abs_self _
        _ = |u| * |v| := abs_mul u v
        _ ≤ |u| * t := by
            exact mul_le_mul_of_nonneg_left (abs_le.mpr ⟨hv2, hv1⟩) (abs_nonneg u)
    simp only [abs_zero]
    nlinarith [sq_nonneg u, mul_nonneg ht (abs_nonneg u)]

/-- Scaled form of the scalar proximal inequality, with the threshold written
as `a / L` and both sides multiplied by `L`. -/
lemma softThresh_prox_scaled (a L v u : ℚ) (ha : 0 ≤ a) (hL : 0 < L) :
    a * |softThresh (a / L) v| + L / 2 * (softThresh (a / L) v - v) ^ 2
      ≤ a * |u| + L / 2 * (u - v) ^ 2 := by
  have ht : 0 ≤ a / L := div_nonneg ha hL.le
  have h := softThresh_prox (a / L) v u ht
  have h2 := mul_le_mul_of_nonneg_left h hL.le
  have hLt : L * (a / L) = a := by field_simp
  calc a * |softThresh (a / L) v| + L / 2 * (softThresh (a / L) v - v) ^ 2
      = L * (a / L * |softThresh (a / L) v| + (softThresh (a / L) v - v) ^ 2 / 2) := by
        rw [mul_add, ← mul_assoc, hLt]; ring
    _ ≤ L * (a / L * |u| + (u - v) ^ 2 / 2) := h2
    _ = a * |u| + L / 2 * (u - v) ^ 2 := by
        rw [mul_add, ← mul_assoc, hLt]; ring

/-- The concrete ISTA step satisfies the proximal inequality required by the
monotonicity theorem, for any nonnegative weights. -/
lemma istaStep_prox {m ns nc : ℕ} (p : IRParams m ns nc) (w : Fin ns → ℚ)
    (halpha : 0 ≤ p.alpha) (hw : ∀ s, 0 ≤ w s) (hL0 : 0 < p.L)
    (z : Fin nc → ℚ) :
    penW p.alpha p.srcOf w (istaStep p w z)
        + p.L / 2 * sqnormQ (fun j => istaStep p w z j - fwdPoint p.A p.M p.L z j)
      ≤ penW p.alpha p.srcOf w z
        + p.L / 2 * sqnormQ (fun j => z j - fwdPoint p.A p.M p.L z j) := by
  unfold penW sqnormQ istaStep
  rw [Finset.mul_sum, Finset.mul_sum, Finset.mul_sum, Finset.mul_sum,
    ← Finset.sum_add_distrib, ← Finset.sum_add_distrib]
  refine Finset.sum_le_sum fun j _ => ?_
  have h := softThresh_prox_scaled (p.alpha * w (p.srcOf j)) p.L
    (fwdPoint p.A p.M p.L z j) (z j) (mul_nonneg halpha (hw (p.srcOf j))) hL0
  nlinarith [h]

/-- Concrete one-sensor, one-source session used to instantiate the
monotonicity theorem on the actual reweighted ISTA solver. -/
def pw1 : IRParams 1 1 1 :=
  ⟨!![1], ![2], 1, 1, 1, id, 1⟩

/-- Concrete instantiation of the monotone-decrease theorem: on the session
`pw1`, during reweighting round 1 (after one weight update), the first inner
step does not increase the penalized objective. -/
theorem claim_C1_monotone_witness :
    objective pw1.A pw1.M
        (penW pw1.alpha pw1.srcOf (roundWeights pw1 1 (irZ pw1 1)))
        (roundTraj (fun r => istaStep pw1 (roundWeights pw1 r (irZ pw1 r)))
          pw1.K (fun _ => 0) 1 1)
      ≤ objective pw1.A pw1.M
        (penW pw1.alpha pw1.srcOf (roundWeights pw1 1 (irZ pw1 1)))
        (roundTraj (fun r => istaStep pw1 (roundWeights pw1 r (irZ pw1 r)))
          pw1.K (fun _ => 0) 1 0) :=
  claim_C1_monotone pw1.A pw1.M pw1.L
    (fun r => penW pw1.alpha pw1.srcOf (roundWeights pw1 r (irZ pw1 r)))
    (fun r => istaStep pw1 (roundWeights pw1 r (irZ pw1 r))) pw1.K (fun _ => 0)
    (by norm_num [pw1, frobSq, Fin.sum_univ_one])
    (by norm_num [pw1])
    (fun r z => istaStep_prox pw1 (roundWeights pw1 r (irZ pw1 r))
      (by norm_num [pw1])
      (roundWeights_nonneg pw1 (by norm_num [pw1]) r (irZ pw1 r))
      (by norm_num [pw1]) z)
    1 0

lemma gradf_one {k : ℕ} (M z : Fin k → ℚ) :
    gradf (1 : Matrix (Fin k) (Fin k) ℚ) M z = fun j => z j - M j := by
  funext j
  unfold gradf
  rw [Matrix.one_mulVec]
  simp [Matrix.one_apply, ite_mul, Finset.sum_ite_eq]

lemma fwdPoint_one {k : ℕ} (M : Fin k → ℚ) (L : ℚ) (z : Fin k → ℚ) :
    fwdPoint (1 : Matrix (Fin k) (Fin k) ℚ) M L z
      = fun j => z j - (z j - M j) / L := by
  funext j
  unfold fwdPoint
  rw [gradf_one]

lemma srcMag_id {n : ℕ} (z : Fin n → ℚ) (s : Fin n) :
    srcMag id z s = |z s| := by
  unfold srcMag
  simp [Finset.filter_eq', id]

/-- Concrete session on which reweighting reactivates a source: identity
operator on two sources, data `(4, 19/10)`, `L = 2`, `alpha = 2`, a large
reweighting `eps = 9`, one inner step per round. -/
def pc : IRParams 2 2 2 :=
  ⟨1, ![4, 19 / 10], 2, 2, 9, id, 1⟩

lemma pc_z1 : irZ pc 1 = ![1, 0] := by
  have h : irZ pc 1 = istaStep pc (fun _ => 1) (fun _ => 0) := rfl
  rw [h]
  funext j
  simp only [pc, istaStep, fwdPoint_one]
  fin_cases j <;> norm_num [softThresh]

lemma pc_z2 : irZ pc 2 = ![12 / 5, 151 / 180] := by
  have h : irZ pc 2
      = istaStep pc (roundWeights pc 1 (irZ pc 1)) (irZ pc 1) := rfl
  rw [h, pc_z1]
  funext j
  simp only [pc, istaStep, fwdPoint_one, roundWeights, srcMag_id]
  fin_cases j <;> norm_num [softThresh, srcMag_id]

/-- Claim C3 counterexample: on the session `pc`, increasing the number of
reweighting rounds from 1 to 2 strictly increases the number of active
sources, refuting the universally quantified sparsity claim. -/
theorem claim_C3_counterexample :
    activeCount pc.srcOf (irZ pc 1) < activeCount pc.srcOf (irZ pc 2) := by
  have h1 : activeCount pc.srcOf (irZ pc 1) = 1 := by
    rw [pc_z1]
    simp only [pc]
    rw [activeCount, Finset.card_filter, Fin.sum_univ_two]
    norm_num [srcMag_id]
  have h2 : activeCount pc.srcOf (irZ pc 2) = 2 := by
    rw [pc_z2]
    simp only [pc]
    rw [activeCount, Finset.card_filter, Fin.sum_univ_two]
    norm_num [srcMag_id]
  rw [h1, h2]
  norm_num

/-- Concrete synthetic simulation with two true sources (data `(3, 3, 0)` on
three candidate sources, identity operator) on which the reweighted solver
keeps exactly the two true sources active in every round. -/
def ps : IRParams 3 3 3 :=
  ⟨1, ![3, 3, 0], 2, 2, 3 / 10, id, 1⟩

lemma ps_z1 : irZ ps 1 = ![1 / 2, 1 / 2, 0] := by
  have h : irZ ps 1 = istaStep ps (fun _ => 1) (fun _ => 0) := rfl
  rw [h]
  funext j
  simp only [ps, istaStep, fwdPoint_one]
  fin_cases j <;> norm_num [softThresh]

lemma ps_step_fix (r : ℕ) :
    istaStep ps (roundWeights ps (r + 1) ![1 / 2, 1 / 2, 0]) ![1 / 2, 1 / 2, 0]
      = ![1 / 2, 1 / 2, 0] := by
  funext j
  simp only [ps, istaStep, fwdPoint_one, roundWeights, Nat.succ_ne_zero,
    if_false, srcMag_id]
  fin_cases j <;> norm_num [softThresh, srcMag_id, abs_of_nonneg]

lemma ps_zr (r : ℕ) : irZ ps (r + 1) = ![1 / 2, 1 / 2, 0] := by
  induction r with
  | zero => exact ps_z1
  | succ n ih =>
      have h : irZ ps (n + 1 + 1)
          = istaStep ps (roundWeights ps (n + 1) (irZ ps (n + 1)))
              (irZ ps (n + 1)) := rfl
      rw [h, ih]
      exact ps_step_fix n

/-- Claim C3 (amended): with `n_tfmxne_iter = 1` the reweighted solver output
equals the plain convex TF-MxNE output on every input; the non-increase of
the number of active sources when `n_tfmxne_iter` grows holds on the
synthetic two-source simulation `ps` (rounds 5 versus 1), not universally. -/
theorem claim_C3_amended :
    (∀ (m ns nc : ℕ) (p : IRParams m ns nc), irZ p 1 = tfMxNE p) ∧
      activeCount ps.srcOf (irZ ps 5) ≤ activeCount ps.srcOf (irZ ps 1) := by
  constructor
  · intro m ns nc p
    rfl
  · have h5 : irZ ps 5 = irZ ps (4 + 1) := rfl
    have h1 : irZ ps 1 = irZ ps (0 + 1) := rfl
    rw [h5, h1, ps_zr 4, ps_zr 0]

/-- Modelled from the spec: restriction of a stacked source time series to
the active sources — entries of sources whose block magnitude does not exceed
the negligibility threshold are zeroed. -/
def activeTS {uu ns : ℕ} (srcOfT : Fin uu → Fin ns) (eta : ℚ)
    (S : Fin uu → ℚ) : Fin uu → ℚ :=
  fun i => if eta < srcMag srcOfT S (srcOfT i) then S i else 0

/-- Modelled from the spec: the packaged solve. The leadfield and the data
are whitened, the reweighted solver runs on the whitened operator composed
with dictionary synthesis, and the residual is computed once at the end, in
whitened space (`whitened data - whitened G applied to the active source
time series`), then de-whitened. -/
def tfOutput {mm uu ns nc : ℕ} (W Winv : Matrix (Fin mm) (Fin mm) ℚ)
    (G : Matrix (Fin mm) (Fin uu) ℚ) (Dsyn : Matrix (Fin uu) (Fin nc) ℚ)
    (Morig : Fin mm → ℚ) (L alpha eps : ℚ) (srcOf : Fin nc → Fin ns)
    (srcOfT : Fin uu → Fin ns) (K nIter : ℕ) (eta : ℚ) :
    (Fin nc → ℚ) × (Fin mm → ℚ) :=
  let Gw := W * G
  let Mw := W.mulVec Morig
  let z := irZ ⟨Gw * Dsyn, Mw, L, alpha, eps, srcOf, K⟩ nIter
  let act := activeTS srcOfT eta (Dsyn.mulVec z)
  (z, Winv.mulVec (Mw - Gw.mulVec act))

/-- Claim C4: when de-whitening inverts the whitener, the residual returned
by the solve equals the original sensor data minus the forward operator
applied to the reconstructed active-source time series; it is a function of
the final coefficient vector only, computed once at the end of the solve. -/
theorem claim_C4_residual {mm uu ns nc : ℕ} (W Winv : Matrix (Fin mm) (Fin mm) ℚ)
    (G : Matrix (Fin mm) (Fin uu) ℚ) (Dsyn : Matrix (Fin uu) (Fin nc) ℚ)
    (Morig : Fin mm → ℚ) (L alpha eps : ℚ) (srcOf : Fin nc → Fin ns)
    (srcOfT : Fin uu → Fin ns) (K nIter : ℕ) (eta : ℚ)
    (hW : Winv * W = 1) :
    (tfOutput W Winv G Dsyn Morig L alpha eps srcOf srcOfT K nIter eta).2
      = Morig - G.mulVec (activeTS srcOfT eta (Dsyn.mulVec
          (tfOutput W Winv G Dsyn Morig L alpha eps srcOf srcOfT K nIter eta).1)) := by
  show Winv.mulVec (W.mulVec Morig - (W * G).mulVec (activeTS srcOfT eta
      (Dsyn.mulVec (irZ ⟨W * G * Dsyn, W.mulVec Morig, L, alpha, eps, srcOf, K⟩ nIter))))
    = _
  rw [Matrix.mulVec_sub, Matrix.mulVec_mulVec, Matrix.mulVec_mulVec,
    ← Matrix.mul_assoc, hW, Matrix.one_mul, Matrix.one_mulVec]
  rfl

/-- Concrete instantiation of the residual identity on a one-sensor,
one-source session with identity whitener. -/
theorem claim_C4_residual_witness :
    ((1 : Matrix (Fin 1) (Fin 1) ℚ) * 1 = 1) ∧
      (tfOutput (1 : Matrix (Fin 1) (Fin 1) ℚ) 1 !![3] !![1] ![5] 1 1 1 id id 1 1 0).2
        = ![5] - (!![3] : Matrix (Fin 1) (Fin 1) ℚ).mulVec (activeTS id 0
            ((!![1] : Matrix (Fin 1) (Fin 1) ℚ).mulVec
              (tfOutput (1 : Matrix (Fin 1) (Fin 1) ℚ) 1 !![3] !![1] ![5] 1 1 1 id id 1 1 0).1)) :=
  ⟨one_mul 1,
   claim_C4_residual 1 1 !![3] !![1] ![5] 1 1 1 id id 1 1 0 (one_mul 1)⟩

/-- Typed error taxonomy of the solver, from the spec. -/
inductive SolverError where
  | configurationError
  | numericalError
  | divergenceError
deriving DecidableEq

/-- Schur complement with respect to the leading entry, the recursion step of
the rational Cholesky feasibility test. -/
def schurComp {n : ℕ} (C : Matrix (Fin (n + 1)) (Fin (n + 1)) ℚ) :
    Matrix (Fin n) (Fin n) ℚ :=
  Matrix.of fun i j => C i.succ j.succ - C i.succ 0 * C 0 j.succ / C 0 0

/-- Modelled from the spec: positive-definiteness check performed by
whitening (Cholesky feasibility: positive leading pivot and positive-definite
Schur complement, recursively). -/
def isPDcheck : {n : ℕ} → Matrix (Fin n) (Fin n) ℚ → Bool
  | 0, _ => true
  | _ + 1, C => if 0 < C 0 0 then isPDcheck (schurComp C) else false

/-- Modelled from the spec: the regularization fallback applied to a noise
covariance that fails the positive-definiteness check. -/
def regularizeCov {n : ℕ} (epsReg : ℚ) (C : Matrix (Fin n) (Fin n) ℚ) :
    Matrix (Fin n) (Fin n) ℚ :=
  C + epsReg • (1 : Matrix (Fin n) (Fin n) ℚ)

/-- Modelled from the spec: a `(wsize, tstep)` scale is compatible with the
signal length when both are positive and the time step divides the length
exactly (padding is handled upstream). -/
def checkScaleCompat (nTimes : ℕ) (scales : List (ℕ × ℕ)) : Bool :=
  scales.all fun sc => decide (0 < sc.1) && decide (0 < sc.2) && decide (sc.2 ∣ nTimes)

/-- The covariance is admissible for whitening when it passes the
positive-definiteness check, possibly after the regularization fallback. -/
def whitenAdmissible {n : ℕ} (epsReg : ℚ) (C : Matrix (Fin n) (Fin n) ℚ) : Bool :=
  isPDcheck C || isPDcheck (regularizeCov epsReg C)

/-- Modelled from the spec: the guarded entry point of the solve. The scale
configuration is validated first, then the covariance is checked during
whitening; only if both pass does the solving engine run. -/
def solveGuarded {n : ℕ} {α : Type} (nTimes : ℕ) (scales : List (ℕ × ℕ))
    (C : Matrix (Fin n) (Fin n) ℚ) (epsReg : ℚ) (engine : Unit → α) :
    Except SolverError α :=
  if checkScaleCompat nTimes scales then
    if whitenAdmissible epsReg C then Except.ok (engine ())
    else Except.error SolverError.numericalError
  else Except.error SolverError.configurationError

/-- Claim C5: for every `wsize`/`tstep` configuration incompatible with the
signal length, the solve returns `ConfigurationError`, and it does so before
any solving begins: the result is the error for every possible solving
engine, which is never invoked. -/
theorem claim_C5_config {n : ℕ} {α : Type} (nTimes : ℕ) (scales : List (ℕ × ℕ))
    (C : Matrix (Fin n) (Fin n) ℚ) (epsReg : ℚ)
    (h : checkScaleCompat nTimes scales = false) :
    ∀ engine : Unit → α,
      solveGuarded nTimes scales C epsReg engine
        = Except.error SolverError.configurationError := by
  intro engine
  simp [solveGuarded, h]

/-- Concrete instantiation of the configuration-error claim: signal length
10 with scale `(16, 3)` (3 does not divide 10). -/
theorem claim_C5_config_witness :
    checkScaleCompat 10 [(16, 3)] = false ∧
      solveGuarded 10 [(16, 3)] !![(1 : ℚ)] 0 (fun _ => (0 : ℚ))
        = Except.error SolverError.configurationError :=
  ⟨by decide,
   claim_C5_config 10 [(16, 3)] !![(1 : ℚ)] 0 (by decide) (fun _ => (0 : ℚ))⟩

/-- Claim C6: for every noise covariance that fails the positive-definiteness
check even after the regularization fallback, a well-configured solve returns
`NumericalError` during whitening, for every possible solving engine — the
engine never runs and no partial coefficient tensor is produced (the error
value carries none). -/
theorem claim_C6_whiten {n : ℕ} {α : Type} (nTimes : ℕ) (scales : List (ℕ × ℕ))
    (C : Matrix (Fin n) (Fin n) ℚ) (epsReg : ℚ)
    (hcfg : checkScaleCompat nTimes scales = true)
    (h1 : isPDcheck C = false)
    (h2 : isPDcheck (regularizeCov epsReg C) = false) :
    ∀ engine : Unit → α,
      solveGuarded nTimes scales C epsReg engine
        = Except.error SolverError.numericalError := by
  intro engine
  simp [solveGuarded, hcfg, whitenAdmissible, h1, h2]

/-- Concrete instantiation of the whitening-error claim: the covariance
`[[-1]]` is not positive-definite, also after adding `(1/2) I`. -/
theorem claim_C6_whiten_witness :
    checkScaleCompat 10 [(4, 2)] = true ∧
      isPDcheck !![(-1 : ℚ)] = false ∧
      isPDcheck (regularizeCov (1 / 2) !![(-1 : ℚ)]) = false ∧
      solveGuarded 10 [(4, 2)] !![(-1 : ℚ)] (1 / 2) (fun _ => (0 : ℚ))
        = Except.error SolverError.numericalError :=
  ⟨by decide,
   by norm_num [isPDcheck],
   by norm_num [isPDcheck, regularizeCov, Matrix.add_apply, Matrix.smul_apply,
     Matrix.one_apply],
   claim_C6_whiten 10 [(4, 2)] !![(-1 : ℚ)] (1 / 2) (by decide)
     (by norm_num [isPDcheck])
     (by norm_num [isPDcheck, regularizeCov, Matrix.add_apply, Matrix.smul_apply,
       Matrix.one_apply])
     (fun _ => (0 : ℚ))⟩

/-- Modelled from the spec: dipole extraction selects, in a fixed source
order, the sources whose block magnitude exceeds the negligibility
threshold; it involves no randomness. -/
def extractDipoles {ns nc : ℕ} (srcOf : Fin nc → Fin ns) (eta : ℚ)
    (z : Fin nc → ℚ) : List (Fin ns) :=
  (List.finRange ns).filter fun s => decide (eta < srcMag srcOf z s)

/-- Claim C7: the solver is deterministic — two runs on equal inputs produce
equal coefficient vectors, and dipole extraction from the final coefficient
vector is a pure function of it (no randomness). -/
theorem claim_C7_deterministic {m ns nc : ℕ} (p q : IRParams m ns nc)
    (n : ℕ) (eta : ℚ) (h : p = q) :
    irZ p n = irZ q n ∧
      extractDipoles p.srcOf eta (irZ p n)
        = extractDipoles q.srcOf eta (irZ q n) := by
  subst h
  exact ⟨rfl, rfl⟩

/-- Concrete instantiation of determinism: two identical runs of the session
`pw1` agree, as does the extracted dipole list. -/
theorem claim_C7_deterministic_witness :
    irZ pw1 1 = irZ pw1 1 ∧
      extractDipoles pw1.srcOf 0 (irZ pw1 1)
        = extractDipoles pw1.srcOf 0 (irZ pw1 1) :=
  claim_C7_deterministic pw1 pw1 1 0 rfl

/-- The state of one solving session: the caller-supplied inputs (sensor
data, noise covariance, leadfield) and the solver-owned working objects
(whitened copies and the coefficient tensor). -/
structure Session (m nc : ℕ) where
  data : Fin m → ℚ
  cov : Matrix (Fin m) (Fin m) ℚ
  gain : Matrix (Fin m) (Fin nc) ℚ
  whitenedData : Fin m → ℚ
  whitenedGain : Matrix (Fin m) (Fin nc) ℚ
  coef : Fin nc → ℚ

/-- Modelled from the spec: the whitening phase writes the solver-owned
whitened copies of data and leadfield; the caller's fields are read only. -/
def whitenPhase {m nc : ℕ} (W : Matrix (Fin m) (Fin m) ℚ) (s : Session m nc) :
    Session m nc :=
  { s with whitenedData := W.mulVec s.data, whitenedGain := W * s.gain }

/-- Modelled from the spec: the solving phase updates only the coefficient
tensor, reading the whitened copies. -/
def solvePhase {m ns nc : ℕ} (srcOf : Fin nc → Fin ns) (L alpha eps : ℚ)
    (K nIter : ℕ) (s : Session m nc) : Session m nc :=
  { s with
    coef := irZ ⟨s.whitenedGain, s.whitenedData, L, alpha, eps, srcOf, K⟩ nIter }

/-- A full solving session: whitening followed by the reweighted solve. -/
def runSession {m ns nc : ℕ} (W : Matrix (Fin m) (Fin m) ℚ)
    (srcOf : Fin nc → Fin ns) (L alpha eps : ℚ) (K nIter : ℕ)
    (s : Session m nc) : Session m nc :=
  solvePhase srcOf L alpha eps K nIter (whitenPhase W s)

/-- Claim C8: a full solving session never mutates the caller-supplied
inputs: sensor data, noise covariance and leadfield are unchanged after the
run; only the solver-owned whitened copies and the coefficient tensor are
written. -/
theorem claim_C8_frame {m ns nc : ℕ} (W : Matrix (Fin m) (Fin m) ℚ)
    (srcOf : Fin nc → Fin ns) (L alpha eps : ℚ) (K nIter : ℕ)
    (s : Session m nc) :
    (runSession W srcOf L alpha eps K nIter s).data = s.data ∧
      (runSession W srcOf L alpha eps K nIter s).cov = s.cov ∧
      (runSession W srcOf L alpha eps K nIter s).gain = s.gain :=
  ⟨rfl, rfl, rfl⟩

end IRTFMxNE
